import Mathlib

/-!
Shallow embedding of `src/template.rs` from the rust-virtual-dom repository.

The Rust source defines a virtual-DOM tree model (`VirtualDom`, `VirtualNode`,
`VirtualElement`) and two macros, `template!` and `inner_template!`, that
expand an Emmet-like abbreviation into a tree.  The macros pattern-match on a
compile-time token tree; we embed the token tree as the inductive `Tok`
(a parenthesized group is one token holding its contents) and the macro's
ordered arms as the recursive function `inner`.  The Rust `HashMap` of
attributes is embedded as an association list with unique keys (`insertAttr`
replaces an existing binding in place), and `HashMap` equality (key/value
pairs as a set) is embedded as the relation `attrsEquiv` below.
-/

set_option maxHeartbeats 1000000
set_option maxRecDepth 4000

namespace VDom

/-- A virtual DOM node, from `enum VirtualNode`: literal text or an element.
The `VirtualElement` struct's fields (`name`, `attributes`, `child_nodes`)
are inlined into the `Element` constructor so that the type is a plain
nested inductive. -/
inductive VirtualNode : Type where
  | Text (s : String) : VirtualNode
  | Element (name : String) (attributes : List (String × String))
      (child_nodes : List VirtualNode) : VirtualNode

/-- The `VirtualElement` struct: the "current element" the grammar engine
mutates. -/
structure VirtualElement : Type where
  name : String
  attributes : List (String × String)
  child_nodes : List VirtualNode

/-- The constructor `VirtualElement::new()`: name `"div"`, empty attributes, no children. -/
def VirtualElement.new : VirtualElement :=
  { name := "div", attributes := [], child_nodes := [] }

/-- Wrap an element as a node, i.e. `VirtualNode::Element(el)`. -/
def VirtualElement.toNode (e : VirtualElement) : VirtualNode :=
  VirtualNode.Element e.name e.attributes e.child_nodes

/-- Model of `HashMap::insert` on the association-list embedding of the attribute map:
replace the binding of `k` in place if present, otherwise append it. -/
def insertAttr : List (String × String) → String → String → List (String × String)
  | [], k, v => [(k, v)]
  | (k', v') :: rest, k, v =>
    if k' = k then (k, v) :: rest else (k', v') :: insertAttr rest k v

/-- Model of `HashMap::get` on the association-list embedding. -/
def getAttr : List (String × String) → String → Option String
  | [], _ => none
  | (k', v') :: rest, k => if k' = k then some v' else getAttr rest k

/-- The attribute-list arm `[$($key:ident=$val:expr)*]`: insert every
key/value pair in order. -/
def applyAttrsList (kvs : List (String × String)) (el : VirtualElement) : VirtualElement :=
  { el with attributes := kvs.foldl (fun m kv => insertAttr m kv.1 kv.2) el.attributes }

/-- The class arm `.$classes:ident`: append to an existing `class` value with
a single space, or set it directly when absent. -/
def applyClass (c : String) (el : VirtualElement) : VirtualElement :=
  let classes :=
    match getAttr el.attributes "class" with
    | some existing => existing ++ " " ++ c
    | none => c
  { el with attributes := insertAttr el.attributes "class" classes }

/-- The id arm `#$id:ident`: overwrite the `id` attribute. -/
def applyId (i : String) (el : VirtualElement) : VirtualElement :=
  { el with attributes := insertAttr el.attributes "id" i }

/-- The name arm `$name:ident`: set the element's tag name. -/
def applyName (n : String) (el : VirtualElement) : VirtualElement :=
  { el with name := n }

/-- The conversion `impl<T: ToString> From<T> for VirtualDom`: a bound value, already
rendered to its text by `to_string`, becomes a one-node document
`vec![VirtualNode::Text(s)]`. -/
def virtualDomFrom (s : String) : List VirtualNode :=
  [VirtualNode.Text s]

/-- The binding arm `{$bind:expr}`: append the document's nodes to the
current element's children. -/
def applyBind (s : String) (el : VirtualElement) : VirtualElement :=
  { el with child_nodes := el.child_nodes ++ virtualDomFrom s }

/-- The notation's primitive tokens, mirroring the token trees matched by
`inner_template!`.  A bound value is represented by its rendered text; a
parenthesized group is a single token holding its contents. -/
inductive Tok : Type where
  | name (s : String) : Tok
  | cls (s : String) : Tok
  | hash (s : String) : Tok
  | attrs (kvs : List (String × String)) : Tok
  | bind (s : String) : Tok
  | child : Tok
  | sibling : Tok
  | group (g : List Tok) : Tok

/-- The parse context: the first macro argument, `top_level` or
`not_top_level`. -/
inductive Ctx : Type where
  | topLevel : Ctx
  | notTopLevel : Ctx
deriving DecidableEq, Repr

/-- The `inner_template!` macro as a recursive function: given the context,
the token stream and the current element, return the updated current element
together with the list of sibling nodes the expansion yields, or `none` when
no macro arm matches (a grammar error, i.e. a compile error in Rust).
The nested matches follow the macro's arm order; in the `+(...)` arm the
group's contents are dropped and the tokens after the group are expanded
twice, exactly as in the source (where `$inner_parens` is bound but never
used). -/
def inner : Ctx → List Tok → VirtualElement →
    Option (VirtualElement × List VirtualNode)
  | _, [], el => some (el, [])
  | tl, Tok.attrs kvs :: rest, el => inner tl rest (applyAttrsList kvs el)
  | _, Tok.child :: Tok.group g :: rest, el => do
      let (elParens, elParensSibs) ← inner Ctx.notTopLevel g VirtualElement.new
      let el1 : VirtualElement :=
        { el with child_nodes :=
            el.child_nodes ++ (elParens.toNode :: elParensSibs) }
      let (el2, elRemainingSibs) ← inner Ctx.notTopLevel rest el1
      some ({ el2 with child_nodes := el2.child_nodes ++ elRemainingSibs }, [])
  | _, Tok.child :: rest, el => do
      let (elRemaining, elRemainingSibs) ← inner Ctx.notTopLevel rest VirtualElement.new
      some ({ el with child_nodes :=
          el.child_nodes ++ (elRemaining.toNode :: elRemainingSibs) }, [])
  | Ctx.notTopLevel, Tok.sibling :: Tok.group _ :: rest, el => do
      let (elParens, elParensSibs) ← inner Ctx.notTopLevel rest VirtualElement.new
      let (el2, elRemainingSibs) ← inner Ctx.notTopLevel rest el
      some (el2, elParens.toNode :: (elParensSibs ++ elRemainingSibs))
  | Ctx.notTopLevel, Tok.sibling :: rest, el => do
      let (elRemaining, elRemainingSibs) ← inner Ctx.notTopLevel rest VirtualElement.new
      some (el, elRemaining.toNode :: elRemainingSibs)
  | Ctx.topLevel, Tok.sibling :: _, _ => none
  | tl, Tok.bind s :: rest, el => inner tl rest (applyBind s el)
  | tl, Tok.cls c :: rest, el => inner tl rest (applyClass c el)
  | tl, Tok.hash i :: rest, el => inner tl rest (applyId i el)
  | tl, Tok.name n :: rest, el => inner tl rest (applyName n el)
  | _, Tok.group _ :: _, _ => none
termination_by _ toks _ => sizeOf toks
decreasing_by all_goals simp_wf <;> omega

/-- The `template!` macro: start from `VirtualElement::new()`, expand the
tokens at the top level, discard the (always empty) sibling list and return
the element; `none` when the expansion has no matching arm. -/
def template (toks : List Tok) : Option VirtualElement := do
  let (el, _) ← inner Ctx.topLevel toks VirtualElement.new
  some el

/-- Equality of the attribute `HashMap`s: the same key/value pairs,
independent of the association lists' internal order. -/
def attrsEquiv (a b : List (String × String)) : Prop :=
  ∀ k, getAttr a k = getAttr b k

mutual

/-- Structural equality of nodes in the sense of the derived `PartialEq`:
field by field, attribute maps compared as maps, children compared as an
ordered sequence. -/
def nodeEquiv : VirtualNode → VirtualNode → Prop
  | VirtualNode.Text s, VirtualNode.Text t => s = t
  | VirtualNode.Element n a c, VirtualNode.Element n' a' c' =>
      n = n' ∧ attrsEquiv a a' ∧ nodesEquiv c c'
  | VirtualNode.Text _, VirtualNode.Element _ _ _ => False
  | VirtualNode.Element _ _ _, VirtualNode.Text _ => False

/-- Ordered comparison of child-node sequences, pointwise by `nodeEquiv`. -/
def nodesEquiv : List VirtualNode → List VirtualNode → Prop
  | [], [] => True
  | x :: xs, y :: ys => nodeEquiv x y ∧ nodesEquiv xs ys
  | [], _ :: _ => False
  | _ :: _, [] => False
end

/-- Structural equality of elements: equal names, map-equal attributes,
pointwise structurally-equal children. -/
def elemEquiv (e e' : VirtualElement) : Prop :=
  e.name = e'.name ∧ attrsEquiv e.attributes e'.attributes ∧
    nodesEquiv e.child_nodes e'.child_nodes

theorem attrsEquiv_refl (a : List (String × String)) : attrsEquiv a a :=
  fun _ => rfl

mutual

theorem nodeEquiv_refl : (n : VirtualNode) → nodeEquiv n n
  | VirtualNode.Text _ => by simp [nodeEquiv]
  | VirtualNode.Element nm a c => by
      have h1 := attrsEquiv_refl a
      have h2 := nodesEquiv_refl c
      simp [nodeEquiv, h1, h2]

theorem nodesEquiv_refl : (l : List VirtualNode) → nodesEquiv l l
  | [] => by simp [nodesEquiv]
  | x :: xs => by
      have h1 := nodeEquiv_refl x
      have h2 := nodesEquiv_refl xs
      simp [nodesEquiv, h1, h2]

end

theorem elemEquiv_refl (e : VirtualElement) : elemEquiv e e :=
  ⟨rfl, attrsEquiv_refl _, nodesEquiv_refl _⟩

/-- C1: evaluating the engine on `div>a+(b)` and on `div>a+(b)c` exhibits the
`+(...)` arm's actual behaviour: the group's contents (`b`) are discarded —
the new sibling is a default `div` rather than an element named `b` — and the
tokens after the group (`c`) are expanded both into the new sibling and into
the original current element, so both children end up named `c`. -/
theorem c1_sibling_group_eval :
    template [Tok.name "div", Tok.child, Tok.name "a", Tok.sibling,
        Tok.group [Tok.name "b"]] =
      some { name := "div", attributes := [],
             child_nodes := [VirtualNode.Element "a" [] [],
               VirtualNode.Element "div" [] []] } ∧
    template [Tok.name "div", Tok.child, Tok.name "a", Tok.sibling,
        Tok.group [Tok.name "b"], Tok.name "c"] =
      some { name := "div", attributes := [],
             child_nodes := [VirtualNode.Element "c" [] [],
               VirtualNode.Element "c" [] []] } := by
  constructor <;>
    simp [template, inner, applyName, VirtualElement.new, VirtualElement.toNode]

/-- C4: parsing `div>(div>div)+(div)` yields an element with exactly two
children: first a `div` whose sole child is a default `div`, second a
childless default `div`. -/
theorem c4_grouping_eval :
    template [Tok.name "div", Tok.child,
        Tok.group [Tok.name "div", Tok.child, Tok.name "div"], Tok.sibling,
        Tok.group [Tok.name "div"]] =
      some { name := "div", attributes := [],
             child_nodes :=
               [VirtualNode.Element "div" [] [VirtualNode.Element "div" [] []],
                VirtualNode.Element "div" [] []] } := by
  simp [template, inner, applyName, VirtualElement.new, VirtualElement.toNode]

/-- C5: parsing `div>div+div` yields an element whose children are exactly
two default `div` elements, in that order, as siblings directly under the
root. -/
theorem c5_sibling_eval :
    template [Tok.name "div", Tok.child, Tok.name "div", Tok.sibling,
        Tok.name "div"] =
      some { name := "div", attributes := [],
             child_nodes := [VirtualNode.Element "div" [] [],
               VirtualNode.Element "div" [] []] } := by
  simp [template, inner, applyName, VirtualElement.new, VirtualElement.toNode]

/-- C8: converting a stringifiable value (represented by its rendered text)
into a document yields exactly one `Text` node holding that text; each
binding arm appends the document's nodes to the current element's children
and continues; and the single-element expression `div{"x"}{3+1}` (the second
value rendering to `"4"`) yields children `[Text "x", Text "4"]` in order. -/
theorem c8_binding :
    (∀ s, virtualDomFrom s = [VirtualNode.Text s]) ∧
    (∀ tl s rest el, inner tl (Tok.bind s :: rest) el =
      inner tl rest
        { el with child_nodes := el.child_nodes ++ virtualDomFrom s }) ∧
    template [Tok.name "div", Tok.bind "x", Tok.bind "4"] =
      some { name := "div", attributes := [],
             child_nodes := [VirtualNode.Text "x", VirtualNode.Text "4"] } := by
  refine ⟨fun s => rfl, fun tl s rest el => ?_, ?_⟩
  · simp [inner, applyBind]
  · simp [template, inner, applyName, applyBind, virtualDomFrom,
      VirtualElement.new]

theorem inner_name_step (tl : Ctx) (n : String) (rest : List Tok)
    (el : VirtualElement) :
    inner tl (Tok.name n :: rest) el = inner tl rest (applyName n el) := by
  simp [inner]

theorem inner_cls_step (tl : Ctx) (c : String) (rest : List Tok)
    (el : VirtualElement) :
    inner tl (Tok.cls c :: rest) el = inner tl rest (applyClass c el) := by
  simp [inner]

theorem inner_hash_step (tl : Ctx) (i : String) (rest : List Tok)
    (el : VirtualElement) :
    inner tl (Tok.hash i :: rest) el = inner tl rest (applyId i el) := by
  simp [inner]

theorem inner_attrs_step (tl : Ctx) (kvs : List (String × String))
    (rest : List Tok) (el : VirtualElement) :
    inner tl (Tok.attrs kvs :: rest) el = inner tl rest (applyAttrsList kvs el) := by
  simp [inner]

theorem inner_bind_step (tl : Ctx) (s : String) (rest : List Tok)
    (el : VirtualElement) :
    inner tl (Tok.bind s :: rest) el = inner tl rest (applyBind s el) := by
  simp [inner]

theorem inner_topLevel_sibling (rest : List Tok) (el : VirtualElement) :
    inner Ctx.topLevel (Tok.sibling :: rest) el = none := by
  cases rest with
  | nil => simp [inner]
  | cons t' rest' => cases t' <;> simp [inner]

theorem inner_group_head (tl : Ctx) (g rest : List Tok) (el : VirtualElement) :
    inner tl (Tok.group g :: rest) el = none := by
  simp [inner]

/-- C2: any expression with a sibling operator at the top level — a `+` token
not preceded by any child-descent `>` (and not inside a group) — fails to
parse: no macro arm matches, so `template!` produces no tree.  (The entry
point's type already guarantees at most one root element is returned.) -/
theorem c2_top_level_sibling_fails (pre post : List Tok)
    (h : ∀ t ∈ pre, t ≠ Tok.child) :
    template (pre ++ Tok.sibling :: post) = none := by
  suffices h' : ∀ el, inner Ctx.topLevel (pre ++ Tok.sibling :: post) el = none by
    simp [template, h' VirtualElement.new]
  induction pre with
  | nil => intro el; simpa using inner_topLevel_sibling post el
  | cons t pre ih =>
    have hpre : ∀ t' ∈ pre, t' ≠ Tok.child := fun t' ht' => h t' (by simp [ht'])
    intro el
    cases t with
    | name n => rw [List.cons_append, inner_name_step]; exact ih hpre _
    | cls c => rw [List.cons_append, inner_cls_step]; exact ih hpre _
    | hash i => rw [List.cons_append, inner_hash_step]; exact ih hpre _
    | attrs kvs => rw [List.cons_append, inner_attrs_step]; exact ih hpre _
    | bind s => rw [List.cons_append, inner_bind_step]; exact ih hpre _
    | sibling => rw [List.cons_append, inner_topLevel_sibling]
    | group g => rw [List.cons_append, inner_group_head]
    | child => exact absurd rfl (h Tok.child (by simp))

/-- Witness for C2 at the concrete input `div+div`. -/
theorem c2_witness :
    template [Tok.name "div", Tok.sibling, Tok.name "div"] = none :=
  c2_top_level_sibling_fails [Tok.name "div"] [Tok.name "div"]
    (by intro t ht; simp at ht; simp [ht])

/-- C9: parsing is deterministic — two parses of the same token stream that
both succeed yield structurally-equal trees, equality being field-by-field
with attribute maps compared as key/value sets and children as an ordered
sequence. -/
theorem c9_parse_deterministic (toks : List Tok) (e e' : VirtualElement)
    (h : template toks = some e) (h' : template toks = some e') :
    elemEquiv e e' := by
  rw [h] at h'
  cases h'
  exact elemEquiv_refl e

/-- Witness for C9 at the concrete input `div`. -/
theorem c9_witness :
    elemEquiv
      { name := "div", attributes := [], child_nodes := ([] : List VirtualNode) }
      { name := "div", attributes := [], child_nodes := ([] : List VirtualNode) } :=
  c9_parse_deterministic [Tok.name "div"] _ _
    (by simp [template, inner, applyName, VirtualElement.new])
    (by simp [template, inner, applyName, VirtualElement.new])

/-- Fold of the id arm over a list of id tokens. -/
def applyIds (ids : List String) (el : VirtualElement) : VirtualElement :=
  ids.foldl (fun e i => applyId i e) el

theorem getAttr_insertAttr (m : List (String × String)) (k v k' : String) :
    getAttr (insertAttr m k v) k' = if k' = k then some v else getAttr m k' := by
  induction m with
  | nil =>
    by_cases hk : k' = k
    · simp [insertAttr, getAttr, hk]
    · have hk2 : ¬ k = k' := fun h => hk h.symm
      simp [insertAttr, getAttr, hk, hk2]
  | cons kv m ih =>
    obtain ⟨k0, v0⟩ := kv
    by_cases h0 : k0 = k
    · subst h0
      by_cases hk : k' = k0
      · subst hk
        simp [insertAttr, getAttr]
      · have hk2 : ¬ k0 = k' := fun h => hk h.symm
        simp [insertAttr, getAttr, hk, hk2]
    · by_cases hk : k' = k0
      · subst hk
        simp [insertAttr, getAttr, h0]
      · have hk2 : ¬ k0 = k' := fun h => hk h.symm
        simp [insertAttr, getAttr, h0, hk2, ih]

theorem inner_hashes (tl : Ctx) (ids : List String) (el : VirtualElement) :
    inner tl (ids.map Tok.hash) el = some (applyIds ids el, []) := by
  induction ids generalizing el with
  | nil => simp [inner, applyIds]
  | cons i ids ih =>
    rw [List.map_cons, inner_hash_step]
    simpa [applyIds] using ih (applyId i el)

theorem getAttr_applyIds_cons (ids : List String) (i : String)
    (el : VirtualElement) :
    getAttr (applyIds (i :: ids) el).attributes "id" = some (ids.getLastD i) := by
  induction ids generalizing i el with
  | nil => simp [applyIds, applyId, getAttr_insertAttr]
  | cons j ids ih =>
    have : applyIds (i :: j :: ids) el = applyIds (j :: ids) (applyId i el) := rfl
    rw [this, ih j (applyId i el), List.getLastD_cons]

/-- C7: when the id production is applied more than once to one element
(`#i` then `#j` then the ids in `ids`), the expansion succeeds with no
siblings and the element's final `id` attribute holds exactly the identifier
of the last id token; every earlier id assignment is overwritten. -/
theorem c7_last_id_wins (tl : Ctx) (el : VirtualElement) (i j : String)
    (ids : List String) :
    inner tl ((i :: j :: ids).map Tok.hash) el =
      some (applyIds (i :: j :: ids) el, []) ∧
    getAttr (applyIds (i :: j :: ids) el).attributes "id" =
      some (ids.getLastD j) := by
  refine ⟨inner_hashes tl _ el, ?_⟩
  rw [getAttr_applyIds_cons, List.getLastD_cons]

theorem inner_child_group_siblings (tl : Ctx) (g rest : List Tok)
    (el el' : VirtualElement) (sibs : List VirtualNode)
    (h : inner tl (Tok.child :: Tok.group g :: rest) el = some (el', sibs)) :
    sibs = [] := by
  simp only [inner] at h
  rcases h3 : inner Ctx.notTopLevel g VirtualElement.new with _ | ⟨ep, eps⟩ <;>
    simp [h3] at h
  rcases h4 : inner Ctx.notTopLevel rest
      { el with child_nodes := el.child_nodes ++ (ep.toNode :: eps) } with
    _ | ⟨e2, rs⟩ <;> simp [h4] at h
  exact h.2

theorem inner_child_plain_siblings (tl : Ctx) (rest : List Tok)
    (el el' : VirtualElement) (sibs : List VirtualNode)
    (hne : ∀ g rest2, rest ≠ Tok.group g :: rest2)
    (h : inner tl (Tok.child :: rest) el = some (el', sibs)) :
    sibs = [] := by
  rw [show inner tl (Tok.child :: rest) el =
      (do
        let (elRemaining, elRemainingSibs) ←
          inner Ctx.notTopLevel rest VirtualElement.new
        some ({ el with child_nodes :=
            el.child_nodes ++ (elRemaining.toNode :: elRemainingSibs) }, [])) from by
    cases rest with
    | nil => simp [inner]
    | cons t' rest' =>
      cases t' with
      | group g => exact absurd rfl (hne g rest')
      | _ => simp [inner]] at h
  rcases h3 : inner Ctx.notTopLevel rest VirtualElement.new with _ | ⟨er, ers⟩ <;>
    simp [h3] at h
  exact h.2

/-- C10: at the top level the expansion never yields sibling nodes — every
successful top-level expansion returns an empty sibling list, so `template!`
can discard the returned list without losing any nodes. -/
theorem c10_top_level_no_siblings (toks : List Tok) (el el' : VirtualElement)
    (sibs : List VirtualNode)
    (h : inner Ctx.topLevel toks el = some (el', sibs)) : sibs = [] := by
  suffices haux : ∀ (tl : Ctx) (ts : List Tok) (e : VirtualElement),
      tl = Ctx.topLevel → ∀ e' ss, inner tl ts e = some (e', ss) → ss = [] from
    haux Ctx.topLevel toks el rfl el' sibs h
  intro tl ts e
  induction tl, ts, e using inner.induct with
  | case1 x e => intro _ e' ss hh; simp [inner] at hh; exact hh.2
  | case2 tl kvs rest e ih =>
    intro htl e' ss hh
    rw [inner_attrs_step] at hh
    exact ih htl e' ss hh
  | case3 x g rest e ih2 ih1 =>
    intro _ e' ss hh
    exact inner_child_group_siblings x g rest e e' ss hh
  | case4 x rest e hne ih1 =>
    intro _ e' ss hh
    exact inner_child_plain_siblings x rest e e' ss
      (fun g rest2 hg => hne g rest2 hg) hh
  | case5 g rest e ih2 ih1 => intro htl; exact absurd htl (by decide)
  | case6 rest e hne ih1 => intro htl; exact absurd htl (by decide)
  | case7 rest e =>
    intro _ e' ss hh
    rw [inner_topLevel_sibling] at hh
    cases hh
  | case8 tl s rest e ih =>
    intro htl e' ss hh
    rw [inner_bind_step] at hh
    exact ih htl e' ss hh
  | case9 tl c rest e ih =>
    intro htl e' ss hh
    rw [inner_cls_step] at hh
    exact ih htl e' ss hh
  | case10 tl i rest e ih =>
    intro htl e' ss hh
    rw [inner_hash_step] at hh
    exact ih htl e' ss hh
  | case11 tl n rest e ih =>
    intro htl e' ss hh
    rw [inner_name_step] at hh
    exact ih htl e' ss hh
  | case12 tl g rest e =>
    intro _ e' ss hh
    rw [inner_group_head] at hh
    cases hh

/-- Witness for C10 at the concrete input `div>span`. -/
theorem c10_witness :
    inner Ctx.topLevel [Tok.name "div", Tok.child, Tok.name "span"]
        VirtualElement.new =
      some ({ name := "div", attributes := [],
              child_nodes := [VirtualNode.Element "span" [] []] }, []) ∧
    ([] : List VirtualNode) = [] := by
  constructor
  · simp [inner, applyName, VirtualElement.new, VirtualElement.toNode]
  · exact c10_top_level_no_siblings [Tok.name "div", Tok.child, Tok.name "span"]
      VirtualElement.new
      { name := "div", attributes := [],
        child_nodes := [VirtualNode.Element "span" [] []] } []
      (by simp [inner, applyName, VirtualElement.new, VirtualElement.toNode])

/-- The class identifiers named by a token list, in order, with
multiplicity. -/
def classTokens : List Tok → List String
  | [] => []
  | Tok.cls c :: rest => c :: classTokens rest
  | _ :: rest => classTokens rest

/-- A token that stays on the current element (class, id, attribute list)
whose attribute list, if any, does not set the `class` key. -/
def isSimpleNoClass : Tok → Bool
  | Tok.cls _ => true
  | Tok.hash _ => true
  | Tok.attrs kvs => kvs.all (fun kv => kv.1 != "class")
  | _ => false

/-- The element transformation of a run of class/id/attribute-list tokens,
folding the corresponding macro arms. -/
def applySimpleToks : List Tok → VirtualElement → VirtualElement
  | [], el => el
  | Tok.cls c :: rest, el => applySimpleToks rest (applyClass c el)
  | Tok.hash i :: rest, el => applySimpleToks rest (applyId i el)
  | Tok.attrs kvs :: rest, el => applySimpleToks rest (applyAttrsList kvs el)
  | _ :: rest, el => applySimpleToks rest el

/-- Space-joined, order-preserving concatenation of class identifiers. -/
def spaceJoin : String → List String → String
  | s, [] => s
  | s, c :: cs => spaceJoin (s ++ " " ++ c) cs

/-- Accumulation of the `class` attribute over a list of class identifiers,
exactly as the class arm steps it. -/
def joinClasses : Option String → List String → Option String
  | acc, [] => acc
  | none, c :: cs => joinClasses (some c) cs
  | some s, c :: cs => joinClasses (some (s ++ " " ++ c)) cs

theorem joinClasses_some (cs : List String) :
    ∀ s, joinClasses (some s) cs = some (spaceJoin s cs) := by
  induction cs with
  | nil => intro s; rfl
  | cons c cs ih => intro s; simp only [joinClasses, spaceJoin]; exact ih _

theorem getAttr_foldl_insert_not_mem (kvs : List (String × String)) :
    ∀ (m : List (String × String)) (k : String), (∀ kv ∈ kvs, kv.1 ≠ k) →
      getAttr (kvs.foldl (fun m kv => insertAttr m kv.1 kv.2) m) k = getAttr m k := by
  induction kvs with
  | nil => intro m k _; rfl
  | cons kv kvs ih =>
    intro m k h
    have hne : ¬ k = kv.1 := fun h' => (h kv (by simp)) h'.symm
    rw [List.foldl_cons, ih _ k (fun kv' h' => h kv' (by simp [h'])),
      getAttr_insertAttr, if_neg hne]

theorem inner_simpleToks (tl : Ctx) (toks : List Tok) (el : VirtualElement)
    (h : ∀ t ∈ toks, isSimpleNoClass t = true) :
    inner tl toks el = some (applySimpleToks toks el, []) := by
  induction toks generalizing el with
  | nil => simp [inner, applySimpleToks]
  | cons t rest ih =>
    have ht := h t (by simp)
    have hrest : ∀ t' ∈ rest, isSimpleNoClass t' = true :=
      fun t' h' => h t' (by simp [h'])
    cases t with
    | cls c => rw [inner_cls_step, applySimpleToks]; exact ih _ hrest
    | hash i => rw [inner_hash_step, applySimpleToks]; exact ih _ hrest
    | attrs kvs => rw [inner_attrs_step, applySimpleToks]; exact ih _ hrest
    | name n => simp [isSimpleNoClass] at ht
    | bind s => simp [isSimpleNoClass] at ht
    | child => simp [isSimpleNoClass] at ht
    | sibling => simp [isSimpleNoClass] at ht
    | group g => simp [isSimpleNoClass] at ht

theorem applySimpleToks_class (toks : List Tok)
    (h : ∀ t ∈ toks, isSimpleNoClass t = true) :
    ∀ el : VirtualElement,
      getAttr (applySimpleToks toks el).attributes "class" =
        joinClasses (getAttr el.attributes "class") (classTokens toks) := by
  induction toks with
  | nil => intro el; simp [applySimpleToks, classTokens, joinClasses]
  | cons t rest ih =>
    have ht := h t (by simp)
    have hrest : ∀ t' ∈ rest, isSimpleNoClass t' = true :=
      fun t' h' => h t' (by simp [h'])
    intro el
    cases t with
    | cls c =>
      simp only [applySimpleToks]
      rw [ih hrest]
      have hcl : getAttr (applyClass c el).attributes "class" =
          joinClasses (getAttr el.attributes "class") [c] := by
        cases hc : getAttr el.attributes "class" <;>
          simp [applyClass, getAttr_insertAttr, hc, joinClasses]
      rw [hcl]
      simp only [classTokens]
      cases hc : getAttr el.attributes "class" <;>
        simp [joinClasses, hc]
    | hash i =>
      simp only [applySimpleToks, classTokens]
      rw [ih hrest]
      have hpres : getAttr (applyId i el).attributes "class" =
          getAttr el.attributes "class" := by
        simp [applyId, getAttr_insertAttr]
      rw [hpres]
    | attrs kvs =>
      simp only [applySimpleToks, classTokens]
      rw [ih hrest]
      have hkvs : ∀ kv ∈ kvs, kv.1 ≠ "class" := by
        simp only [isSimpleNoClass, List.all_eq_true] at ht
        intro kv hkv
        simpa using ht kv hkv
      have hpres : getAttr (applyAttrsList kvs el).attributes "class" =
          getAttr el.attributes "class" :=
        getAttr_foldl_insert_not_mem kvs el.attributes "class" hkvs
      rw [hpres]
    | name n => simp [isSimpleNoClass] at ht
    | bind s => simp [isSimpleNoClass] at ht
    | child => simp [isSimpleNoClass] at ht
    | sibling => simp [isSimpleNoClass] at ht
    | group g => simp [isSimpleNoClass] at ht

/-- C6 (amended): for a run of class tokens interleaved in any way with id
tokens and with attribute lists that do not set the `class` key, applied to
an element with no `class` attribute yet, the expansion succeeds with no
siblings and the resulting `class` attribute is the space-joined,
order-preserving concatenation of all the class identifiers, with no
deduplication. -/
theorem c6_class_accumulation (tl : Ctx) (toks : List Tok) (el : VirtualElement)
    (htoks : ∀ t ∈ toks, isSimpleNoClass t = true)
    (hel : getAttr el.attributes "class" = none)
    (c : String) (cs : List String) (hcls : classTokens toks = c :: cs) :
    inner tl toks el = some (applySimpleToks toks el, []) ∧
    getAttr (applySimpleToks toks el).attributes "class" =
      some (spaceJoin c cs) := by
  refine ⟨inner_simpleToks tl toks el htoks, ?_⟩
  rw [applySimpleToks_class toks htoks el, hel, hcls, joinClasses,
    joinClasses_some]

/-- Witness for C6 (amended): `.a#x.b[width=4].a` on a fresh element gives
class `"a b a"` (order kept, duplicate kept). -/
theorem c6_witness :
    inner Ctx.notTopLevel
        [Tok.cls "a", Tok.hash "x", Tok.cls "b",
         Tok.attrs [("width", "4")], Tok.cls "a"] VirtualElement.new =
      some (applySimpleToks
        [Tok.cls "a", Tok.hash "x", Tok.cls "b",
         Tok.attrs [("width", "4")], Tok.cls "a"] VirtualElement.new, []) ∧
    getAttr (applySimpleToks
        [Tok.cls "a", Tok.hash "x", Tok.cls "b",
         Tok.attrs [("width", "4")], Tok.cls "a"]
        VirtualElement.new).attributes "class" =
      some (spaceJoin "a" ["b", "a"]) :=
  c6_class_accumulation Ctx.notTopLevel
    [Tok.cls "a", Tok.hash "x", Tok.cls "b",
     Tok.attrs [("width", "4")], Tok.cls "a"] VirtualElement.new
    (by decide) (by decide) "a" ["b", "a"] (by decide)

/-- Counterexample to C6 as stated: with the interleaved attribute list
`[class=x]`, the expression `.a[class=x]` leaves class `"x"`, not the
space-join `"a"` of its class identifiers — an attribute list naming the
`class` key overwrites the accumulated value. -/
theorem c6_counterexample :
    inner Ctx.notTopLevel [Tok.cls "a", Tok.attrs [("class", "x")]]
        VirtualElement.new =
      some ({ name := "div", attributes := [("class", "x")],
              child_nodes := [] }, []) ∧
    classTokens [Tok.cls "a", Tok.attrs [("class", "x")]] = ["a"] ∧
    getAttr [("class", "x")] "class" ≠ some (spaceJoin "a" []) := by
  refine ⟨?_, rfl, by decide⟩
  simp [inner, applyClass, applyAttrsList, insertAttr, getAttr,
    VirtualElement.new]

/-- The three productions that stay on the current element: a class token, an
id token, an attribute list. -/
inductive SimpleProd : Type where
  | cls (s : String) : SimpleProd
  | hash (s : String) : SimpleProd
  | attrs (kvs : List (String × String)) : SimpleProd
deriving DecidableEq, Repr

/-- Apply one such production via the corresponding macro arm. -/
def applyProd : SimpleProd → VirtualElement → VirtualElement
  | SimpleProd.cls c, el => applyClass c el
  | SimpleProd.hash i, el => applyId i el
  | SimpleProd.attrs kvs, el => applyAttrsList kvs el

/-- Apply a sequence of such productions left to right. -/
def applyProds (ps : List SimpleProd) (el : VirtualElement) : VirtualElement :=
  ps.foldl (fun e p => applyProd p e) el

/-- The attribute keys a production writes. -/
def prodKeys : SimpleProd → List String
  | SimpleProd.cls _ => ["class"]
  | SimpleProd.hash _ => ["id"]
  | SimpleProd.attrs kvs => kvs.map Prod.fst

/-- The attribute-map part of one production. -/
def prodAttrs : SimpleProd → List (String × String) → List (String × String)
  | SimpleProd.cls c, m =>
      insertAttr m "class"
        (match getAttr m "class" with
          | some existing => existing ++ " " ++ c
          | none => c)
  | SimpleProd.hash i, m => insertAttr m "id" i
  | SimpleProd.attrs kvs, m =>
      kvs.foldl (fun m kv => insertAttr m kv.1 kv.2) m

theorem applyProd_attributes (t : SimpleProd) (el : VirtualElement) :
    (applyProd t el).attributes = prodAttrs t el.attributes := by
  cases t <;> rfl

theorem applyProd_name (t : SimpleProd) (el : VirtualElement) :
    (applyProd t el).name = el.name := by
  cases t <;> rfl

theorem applyProd_child_nodes (t : SimpleProd) (el : VirtualElement) :
    (applyProd t el).child_nodes = el.child_nodes := by
  cases t <;> rfl

theorem applyProds_name (ps : List SimpleProd) :
    ∀ el : VirtualElement, (applyProds ps el).name = el.name := by
  induction ps with
  | nil => intro el; rfl
  | cons p ps ih =>
    intro el
    show (applyProds ps (applyProd p el)).name = el.name
    rw [ih, applyProd_name]

theorem applyProds_child_nodes (ps : List SimpleProd) :
    ∀ el : VirtualElement, (applyProds ps el).child_nodes = el.child_nodes := by
  induction ps with
  | nil => intro el; rfl
  | cons p ps ih =>
    intro el
    show (applyProds ps (applyProd p el)).child_nodes = el.child_nodes
    rw [ih, applyProd_child_nodes]

theorem insertAttr_congr (m m' : List (String × String)) (k v : String)
    (h : attrsEquiv m m') : attrsEquiv (insertAttr m k v) (insertAttr m' k v) := by
  intro k'
  rw [getAttr_insertAttr, getAttr_insertAttr, h k']

theorem foldl_insert_congr (kvs : List (String × String)) :
    ∀ m m' : List (String × String), attrsEquiv m m' →
      attrsEquiv (kvs.foldl (fun m kv => insertAttr m kv.1 kv.2) m)
        (kvs.foldl (fun m kv => insertAttr m kv.1 kv.2) m') := by
  induction kvs with
  | nil => intro m m' h; exact h
  | cons kv kvs ih =>
    intro m m' h
    exact ih _ _ (insertAttr_congr m m' kv.1 kv.2 h)

theorem prodAttrs_congr (t : SimpleProd) (m m' : List (String × String))
    (h : attrsEquiv m m') : attrsEquiv (prodAttrs t m) (prodAttrs t m') := by
  cases t with
  | cls c =>
    simp only [prodAttrs]
    rw [h "class"]
    exact insertAttr_congr m m' _ _ h
  | hash i => exact insertAttr_congr m m' _ _ h
  | attrs kvs => exact foldl_insert_congr kvs m m' h

theorem prodAttrs_not_mem (t : SimpleProd) (m : List (String × String))
    (k : String) (hk : k ∉ prodKeys t) :
    getAttr (prodAttrs t m) k = getAttr m k := by
  cases t with
  | cls c =>
    have hne : ¬ k = "class" := by simpa [prodKeys] using hk
    simp only [prodAttrs]
    rw [getAttr_insertAttr, if_neg hne]
  | hash i =>
    have hne : ¬ k = "id" := by simpa [prodKeys] using hk
    simp only [prodAttrs]
    rw [getAttr_insertAttr, if_neg hne]
  | attrs kvs =>
    have hkvs : ∀ kv ∈ kvs, kv.1 ≠ k := by
      intro kv hkv heq
      exact hk (show k ∈ kvs.map Prod.fst from List.mem_map.mpr ⟨kv, hkv, heq⟩)
    exact getAttr_foldl_insert_not_mem kvs m k hkvs

theorem getAttr_foldl_insert_mem (kvs : List (String × String)) :
    ∀ (m m' : List (String × String)) (k : String), k ∈ kvs.map Prod.fst →
      getAttr (kvs.foldl (fun m kv => insertAttr m kv.1 kv.2) m) k =
        getAttr (kvs.foldl (fun m kv => insertAttr m kv.1 kv.2) m') k := by
  induction kvs with
  | nil => intro m m' k hk; simp at hk
  | cons kv kvs ih =>
    intro m m' k hk
    by_cases hmem : k ∈ kvs.map Prod.fst
    · exact ih _ _ k hmem
    · have hor : k = kv.1 ∨ k ∈ kvs.map Prod.fst := by simpa using hk
      have hkk : k = kv.1 := hor.resolve_right hmem
      have hkvs : ∀ kv' ∈ kvs, kv'.1 ≠ k := by
        intro kv' hkv' heq
        exact hmem (List.mem_map.mpr ⟨kv', hkv', heq⟩)
      rw [List.foldl_cons, List.foldl_cons,
        getAttr_foldl_insert_not_mem kvs _ k hkvs,
        getAttr_foldl_insert_not_mem kvs _ k hkvs,
        getAttr_insertAttr, getAttr_insertAttr, if_pos hkk, if_pos hkk]

theorem prodAttrs_mem (t : SimpleProd) (m m' : List (String × String))
    (hagree : ∀ j ∈ prodKeys t, getAttr m j = getAttr m' j)
    (k : String) (hk : k ∈ prodKeys t) :
    getAttr (prodAttrs t m) k = getAttr (prodAttrs t m') k := by
  cases t with
  | cls c =>
    have hkc : k = "class" := by simpa [prodKeys] using hk
    subst hkc
    simp only [prodAttrs]
    rw [getAttr_insertAttr, getAttr_insertAttr, if_pos rfl, if_pos rfl,
      hagree "class" (by simp [prodKeys])]
  | hash i =>
    have hki : k = "id" := by simpa [prodKeys] using hk
    subst hki
    simp only [prodAttrs]
    rw [getAttr_insertAttr, getAttr_insertAttr, if_pos rfl, if_pos rfl]
  | attrs kvs =>
    exact getAttr_foldl_insert_mem kvs m m' k (by simpa [prodKeys] using hk)

theorem prodAttrs_swap (t1 t2 : SimpleProd)
    (hdisj : ∀ k ∈ prodKeys t1, k ∉ prodKeys t2)
    (m : List (String × String)) :
    attrsEquiv (prodAttrs t2 (prodAttrs t1 m)) (prodAttrs t1 (prodAttrs t2 m)) := by
  intro k
  by_cases h1 : k ∈ prodKeys t1
  · have h2 : k ∉ prodKeys t2 := hdisj k h1
    rw [prodAttrs_not_mem t2 _ k h2]
    have hagree : ∀ j ∈ prodKeys t1, getAttr (prodAttrs t2 m) j = getAttr m j :=
      fun j hj => prodAttrs_not_mem t2 m j (hdisj j hj)
    exact (prodAttrs_mem t1 (prodAttrs t2 m) m hagree k h1).symm
  · by_cases h2 : k ∈ prodKeys t2
    · rw [prodAttrs_not_mem t1 (prodAttrs t2 m) k h1]
      have hagree : ∀ j ∈ prodKeys t2, getAttr (prodAttrs t1 m) j = getAttr m j := by
        intro j hj
        have hj1 : j ∉ prodKeys t1 := fun hmem => hdisj j hmem hj
        exact prodAttrs_not_mem t1 m j hj1
      exact prodAttrs_mem t2 (prodAttrs t1 m) m hagree k h2
    · rw [prodAttrs_not_mem t2 _ k h2, prodAttrs_not_mem t1 m k h1,
        prodAttrs_not_mem t1 _ k h1, prodAttrs_not_mem t2 m k h2]

theorem applyProds_attributes (ps : List SimpleProd) :
    ∀ el : VirtualElement,
      (applyProds ps el).attributes =
        ps.foldl (fun m p => prodAttrs p m) el.attributes := by
  induction ps with
  | nil => intro el; rfl
  | cons p ps ih =>
    intro el
    show (applyProds ps (applyProd p el)).attributes = _
    rw [ih, List.foldl_cons, applyProd_attributes]

theorem foldl_prodAttrs_congr (ps : List SimpleProd) :
    ∀ m m' : List (String × String), attrsEquiv m m' →
      attrsEquiv (ps.foldl (fun m p => prodAttrs p m) m)
        (ps.foldl (fun m p => prodAttrs p m) m') := by
  induction ps with
  | nil => intro m m' h; exact h
  | cons p ps ih =>
    intro m m' h
    exact ih _ _ (prodAttrs_congr p m m' h)

theorem applyProds_swap_head (t1 t2 : SimpleProd) (b : List SimpleProd)
    (hdisj : ∀ k ∈ prodKeys t1, k ∉ prodKeys t2) (m : VirtualElement) :
    elemEquiv (applyProds (t1 :: t2 :: b) m) (applyProds (t2 :: t1 :: b) m) := by
  refine ⟨by simp [applyProds_name], ?_, ?_⟩
  · rw [applyProds_attributes, applyProds_attributes]
    simp only [List.foldl_cons]
    exact foldl_prodAttrs_congr b _ _ (prodAttrs_swap t1 t2 hdisj m.attributes)
  · rw [applyProds_child_nodes, applyProds_child_nodes]
    exact nodesEquiv_refl _

/-- C3 (amended): reordering class, id and attribute-list productions on one
element preserves the resulting element (structurally, with attributes
compared as a map) when the two interchanged adjacent productions write
disjoint attribute-key sets — `{class}` for a class token, `{id}` for an id
token, the listed keys for an attribute list.  (Productions writing a common
key — two class tokens, two id tokens, or a class/id token against an
attribute list naming that key — do not commute in general, see the
counterexample.) -/
theorem c3_swap_adjacent (a b : List SimpleProd) (t1 t2 : SimpleProd)
    (hdisj : ∀ k ∈ prodKeys t1, k ∉ prodKeys t2) (el : VirtualElement) :
    elemEquiv (applyProds (a ++ t1 :: t2 :: b) el)
      (applyProds (a ++ t2 :: t1 :: b) el) := by
  have happ : ∀ (l1 l2 : List SimpleProd) (e : VirtualElement),
      applyProds (l1 ++ l2) e = applyProds l2 (applyProds l1 e) := by
    intro l1 l2 e
    simp [applyProds, List.foldl_append]
  rw [happ, happ]
  exact applyProds_swap_head t1 t2 b hdisj (applyProds a el)

/-- Witness for C3 (amended): swapping `.a` with `#i` on a fresh element. -/
theorem c3_witness :
    elemEquiv
      (applyProds [SimpleProd.cls "a", SimpleProd.hash "i"] VirtualElement.new)
      (applyProds [SimpleProd.hash "i", SimpleProd.cls "a"] VirtualElement.new) :=
  c3_swap_adjacent [] [] (SimpleProd.cls "a") (SimpleProd.hash "i")
    (by decide) VirtualElement.new

/-- Counterexample to C3 as stated: reordering two class productions,
`.a.b` versus `.b.a`, yields different elements (class `"a b"` versus
`"b a"`), so not every reordering of the `.`/`#`/`[]` productions preserves
the element. -/
theorem c3_counterexample :
    ¬ elemEquiv
        (applyProds [SimpleProd.cls "a", SimpleProd.cls "b"] VirtualElement.new)
        (applyProds [SimpleProd.cls "b", SimpleProd.cls "a"] VirtualElement.new) :=
  fun h => absurd (h.2.1 "class") (by decide)

end VDom
